import Mathlib

/-!
Verification of the log-analyzer program (file `Log_Analyzer.py`).

The program parses Apache combined-log-format lines and computes two
aggregates: a histogram of accesses per hour and the set of client
addresses of non-bot accesses.  The Python functions are shallowly
embedded here:

* `get_user_agent` models `line.split('" ')[-1].strip('" \n')` followed
  by the length test `len(...) > 2` (absent result modelled as `none`);
* `is_bot` models the truthiness test plus `re.search('bot', line.lower())`;
* `get_ipaddr` models `re.search('^([0-9]+\.)+[0-9]+\b', line).group(0)`,
  where a failed search (an `AttributeError` in Python) is `none`;
* `get_hour` models `re.search('\[(.+)\]', line)` followed by
  `datetime.strptime(group(1), '%d/%b/%Y:%H:%M:%S %z').hour`, with any
  raised exception modelled as `none`;
* `histbyhour` and `ipaddreses` fold the extractors over a list of lines
  (the file object is modelled as the list of its lines); an exception
  escaping the loop is modelled as a `none` overall result.

Character classes follow the ASCII behaviour of the CPython `re` module
(the inputs of the program are ASCII log lines).
-/

namespace LogAnalyzer

/-- Characters stripped by `strip('" \n')` in `get_user_agent`. -/
def isStripC (c : Char) : Bool := c = '"' || c = ' ' || c = '\n'

/-- Test whether the first character of a list is `c`. -/
def headIs (c : Char) : List Char → Bool
  | [] => false
  | x :: _ => x = c

/-- Python `str.strip` with the char set `'" \n'`: drop the stripped
characters from the front and from the back of the list. -/
def stripChars (cs : List Char) : List Char :=
  ((cs.dropWhile isStripC).reverse.dropWhile isStripC).reverse

/-- Python `line.split('" ')`: split on every non-overlapping occurrence
of the two-character separator quote-then-space, scanning left to right.
The result is always non-empty. -/
def splitOnQS : List Char → List (List Char)
  | [] => [[]]
  | [c] => [[c]]
  | c1 :: c2 :: rest =>
    if c1 = '"' && c2 = ' ' then [] :: splitOnQS rest
    else
      match splitOnQS (c2 :: rest) with
      | h :: t => (c1 :: h) :: t
      | [] => [[c1]]

/-- Occurrence test for the separator quote-then-space used by
`splitOnQS`; a line without an occurrence splits into one segment. -/
def hasQS : List Char → Bool
  | [] => false
  | [_] => false
  | c1 :: c2 :: rest => (c1 = '"' && c2 = ' ') || hasQS (c2 :: rest)

/-- Model of the Python function `get_user_agent`: take the last segment
of `line.split('" ')`, strip the characters `'" \n'` from both ends, and
return it only when its length exceeds 2; otherwise the Python function
falls through and returns `None`, modelled as `none`. -/
def get_user_agent (line : String) : Option String :=
  let u := stripChars ((splitOnQS line.data).getLastD [])
  if 2 < u.length then some (String.mk u) else none

/-- Pattern `bot` searched by `is_bot`. -/
def botPat : List Char := ['b', 'o', 't']

/-- Substring containment, modelling `re.search` with a literal pattern:
true iff `pat` occurs contiguously somewhere in the haystack. -/
def hasSubstr (pat : List Char) : List Char → Bool
  | [] => pat.isEmpty
  | c :: t => pat.isPrefixOf (c :: t) || hasSubstr pat t

/-- Model of the Python function `is_bot`: the argument is the value of
`get_user_agent` in normal use, hence an optional string; `None` and the
empty string are falsy and give `False`, otherwise the lowercased text is
searched for the pattern `bot`.  `Char.toLower` models `str.lower` on the
ASCII inputs of the program. -/
def is_bot (ua : Option String) : Bool :=
  match ua with
  | none => false
  | some s => if s.isEmpty then false else hasSubstr botPat (s.data.map Char.toLower)

end LogAnalyzer

namespace LogAnalyzer

/-- ASCII decimal digit test, the `[0-9]` class of the patterns (the
same test as `Char.isDigit`). -/
def isDig (c : Char) : Bool := c.val ≥ 48 && c.val ≤ 57

/-- Numeric value of a digit character. -/
def dval (c : Char) : Nat := c.toNat - 48

/-- Word character, the class `\w` deciding the `\b` boundary of the
address pattern: ASCII letter, digit or underscore. -/
def isWordChar (c : Char) : Bool := c.isAlphanum || c = '_'

/-- Word boundary after the end of a match: the remainder is empty or
starts with a non-word character. -/
def boundaryOk : List Char → Bool
  | [] => true
  | c :: _ => !isWordChar c

/-- Scanner for the leading `([0-9]+\.)+[0-9]+` structure: given the
reversed current digit run `cur` (non-empty) and the remaining input,
accumulate the maximal list of dot-separated digit runs and return it
with the unconsumed remainder. -/
def runsAux (cur : List Char) : List Char → List (List Char) × List Char
  | [] => ([cur.reverse], [])
  | c :: rest =>
    if isDig c then runsAux (c :: cur) rest
    else if c = '.' then
      match rest with
      | d :: rest2 =>
        if isDig d then
          match runsAux [d] rest2 with
          | (rs, r) => (cur.reverse :: rs, r)
        else ([cur.reverse], c :: rest)
      | [] => ([cur.reverse], [c])
    else ([cur.reverse], c :: rest)

/-- Maximal decomposition of a line into leading dot-separated digit runs
plus remainder; an empty run list when the line does not start with a
digit. -/
def splitRuns (cs : List Char) : List (List Char) × List Char :=
  match cs with
  | [] => ([], [])
  | c :: rest => if isDig c then runsAux [c] rest else ([], cs)

/-- Join digit runs back with dots, rebuilding the matched text. -/
def joinRuns : List (List Char) → List Char
  | [] => []
  | [r] => r
  | r :: s :: t => r ++ '.' :: joinRuns (s :: t)

/-- Model of the Python function `get_ipaddr`:
`re.search('^([0-9]+\.)+[0-9]+\b', line).group(0)`, with the failed
search (`AttributeError`) modelled as `none`.  The backtracking search of
CPython on this anchored pattern resolves to: decompose the line into its
maximal leading dot-separated digit runs; fewer than two runs is a
failure; with the word boundary satisfied after the last run the match is
all runs; otherwise the engine backtracks one group iteration, which
succeeds (ending just before a dot) exactly when there are at least three
runs. -/
def get_ipaddr (line : String) : Option String :=
  match splitRuns line.data with
  | (runs, rest) =>
    if runs.length < 2 then none
    else if boundaryOk rest then some (String.mk (joinRuns runs))
    else if 3 ≤ runs.length then some (String.mk (joinRuns runs.dropLast))
    else none

end LogAnalyzer

namespace LogAnalyzer

/-- Find the closing bracket for `\[(.+)\]` inside one newline-free
segment: the content is everything before the last `]` of the segment and
must be non-empty (`.+`). -/
def seekClose (seg : List Char) : Option (List Char) :=
  match seg.reverse.dropWhile (fun c => !(c = ']')) with
  | [] => none
  | _ :: t => if t = [] then none else some t.reverse

/-- Model of `re.search('\[(.+)\]', line)` returning `group(1)`: the
leftmost `[` from which a greedy match completes; `.` does not match a
newline, and the greedy `.+` runs to the last `]` reachable without
crossing a newline.  When no match starts at a given `[`, the search
continues at the next position. -/
def bracketContent : List Char → Option (List Char)
  | [] => none
  | c :: rest =>
    if c = '[' then
      match seekClose (rest.takeWhile (fun x => !(x = '\n'))) with
      | some content => some content
      | none => bracketContent rest
    else bracketContent rest

/-- Python `\s` on ASCII input: the whitespace characters recognised by
the `\s+` that the format literal space is translated to. -/
def isPySpace (c : Char) : Bool :=
  c = ' ' || c = '\t' || c = '\n' || c = '\r' || c = '\x0b' || c = '\x0c'

/-- Literal character of the `strptime` format. -/
def lit (c : Char) : List Char → Option (List Char)
  | [] => none
  | x :: rest => if x = c then some rest else none

/-- Directive `%d` of `_strptime`, the regex
`3[01]|[1-2][0-9]|0[1-9]|[1-9]| [1-9]` with its alternatives tried in
order; the following literal `/` is not a digit, so committing to the
first matching alternative is faithful. -/
def pDay : List Char → Option (Nat × List Char)
  | [] => none
  | [c1] => if '1' ≤ c1 && c1 ≤ '9' then some (dval c1, []) else none
  | c1 :: c2 :: rest =>
    if c1 = '3' && (c2 = '0' || c2 = '1') then some (30 + dval c2, rest)
    else if ('1' ≤ c1 && c1 ≤ '2') && isDig c2 then some (dval c1 * 10 + dval c2, rest)
    else if c1 = '0' && ('1' ≤ c2 && c2 ≤ '9') then some (dval c2, rest)
    else if '1' ≤ c1 && c1 ≤ '9' then some (dval c1, c2 :: rest)
    else if c1 = ' ' && ('1' ≤ c2 && c2 ≤ '9') then some (dval c2, rest)
    else none

/-- Lowercased month abbreviations of the C locale, the alternatives of
the `%b` directive. -/
def monthNames : List (List Char) :=
  [['j', 'a', 'n'], ['f', 'e', 'b'], ['m', 'a', 'r'], ['a', 'p', 'r'],
   ['m', 'a', 'y'], ['j', 'u', 'n'], ['j', 'u', 'l'], ['a', 'u', 'g'],
   ['s', 'e', 'p'], ['o', 'c', 't'], ['n', 'o', 'v'], ['d', 'e', 'c']]

/-- Directive `%b`: a three-letter month abbreviation, case-insensitive
(the `_strptime` regex is compiled with `IGNORECASE`), yielding the month
number 1..12. -/
def pMon : List Char → Option (Nat × List Char)
  | c1 :: c2 :: c3 :: rest =>
    match monthNames.findIdx? (fun n => n == [c1.toLower, c2.toLower, c3.toLower]) with
    | some i => some (i + 1, rest)
    | none => none
  | _ => none

/-- Directive `%Y`: exactly four digits. -/
def pYear : List Char → Option (Nat × List Char)
  | c1 :: c2 :: c3 :: c4 :: rest =>
    if isDig c1 && isDig c2 && isDig c3 && isDig c4 then
      some (((dval c1 * 10 + dval c2) * 10 + dval c3) * 10 + dval c4, rest)
    else none
  | _ => none

/-- Directive `%H`, the regex `2[0-3]|[0-1][0-9]|[0-9]`; the following
literal `:` is not a digit, so committing to the first matching
alternative is faithful. -/
def pHour : List Char → Option (Nat × List Char)
  | [] => none
  | [c1] => if isDig c1 then some (dval c1, []) else none
  | c1 :: c2 :: rest =>
    if c1 = '2' && ('0' ≤ c2 && c2 ≤ '3') then some (20 + dval c2, rest)
    else if ('0' ≤ c1 && c1 ≤ '1') && isDig c2 then some (dval c1 * 10 + dval c2, rest)
    else if isDig c1 then some (dval c1, c2 :: rest)
    else none

/-- Directive `%M`, the regex `[0-5][0-9]|[0-9]`. -/
def pMin : List Char → Option (Nat × List Char)
  | [] => none
  | [c1] => if isDig c1 then some (dval c1, []) else none
  | c1 :: c2 :: rest =>
    if ('0' ≤ c1 && c1 ≤ '5') && isDig c2 then some (dval c1 * 10 + dval c2, rest)
    else if isDig c1 then some (dval c1, c2 :: rest)
    else none

/-- Directive `%S`, the regex `6[0-1]|[0-5][0-9]|[0-9]` (leap seconds are
matched here and rejected later by the `datetime` constructor). -/
def pSec : List Char → Option (Nat × List Char)
  | [] => none
  | [c1] => if isDig c1 then some (dval c1, []) else none
  | c1 :: c2 :: rest =>
    if c1 = '6' && (c2 = '0' || c2 = '1') then some (60 + dval c2, rest)
    else if ('0' ≤ c1 && c1 ≤ '5') && isDig c2 then some (dval c1 * 10 + dval c2, rest)
    else if isDig c1 then some (dval c1, c2 :: rest)
    else none

/-- The `\s+` the literal space of the format is rewritten to by
`TimeRE`: one or more whitespace characters. -/
def pSpaces : List Char → Option (List Char)
  | [] => none
  | c :: rest => if isPySpace c then some (rest.dropWhile isPySpace) else none

/-- Optional fractional part `(\.[0-9]{1,6})?` of the `%z` offset: a dot
followed by one to six digits; with no digit after the dot the group is
not taken and the dot stays in the remainder. -/
def pFrac (r : List Char) : List Char :=
  match r with
  | c :: rest =>
    if c = '.' then
      match rest.takeWhile isDig with
      | [] => r
      | ds => rest.drop (min 6 ds.length)
    else r
  | [] => r

/-- Optional seconds part `(:?[0-5][0-9](\.[0-9]{1,6})?)?` of `%z`,
together with the consistency rule of `_strptime`: when the offset used a
colon before the minutes and has a seconds part, a colon is required
before the seconds as well (otherwise `ValueError`).  Returns the offset
magnitude in seconds and the remainder; when the group does not match it
is simply not taken. -/
def pZsec (hh mm : Nat) (colon1 : Bool) (r : List Char) : Option (Nat × List Char) :=
  match r with
  | [] => some (hh * 3600 + mm * 60, [])
  | c :: rest =>
    if c = ':' then
      match rest with
      | s1 :: s2 :: r3 =>
        if ('0' ≤ s1 && s1 ≤ '5') && isDig s2 then
          some (hh * 3600 + mm * 60 + (dval s1 * 10 + dval s2), pFrac r3)
        else some (hh * 3600 + mm * 60, r)
      | _ => some (hh * 3600 + mm * 60, r)
    else
      match r with
      | s1 :: s2 :: r3 =>
        if ('0' ≤ s1 && s1 ≤ '5') && isDig s2 then
          if colon1 then none
          else some (hh * 3600 + mm * 60 + (dval s1 * 10 + dval s2), pFrac r3)
        else some (hh * 3600 + mm * 60, r)
      | _ => some (hh * 3600 + mm * 60, r)

/-- Minutes part of `%z`: an optional colon, then `[0-5][0-9]`, then the
optional seconds part. -/
def pZrest (hh : Nat) (r : List Char) : Option (Nat × List Char) :=
  match r with
  | c :: rest =>
    if c = ':' then
      match rest with
      | m1 :: m2 :: r2 =>
        if ('0' ≤ m1 && m1 ≤ '5') && isDig m2 then
          pZsec hh (dval m1 * 10 + dval m2) true r2
        else none
      | _ => none
    else
      match r with
      | m1 :: m2 :: r2 =>
        if ('0' ≤ m1 && m1 ≤ '5') && isDig m2 then
          pZsec hh (dval m1 * 10 + dval m2) false r2
        else none
      | _ => none
  | [] => none

/-- Directive `%z`, the regex
`[+-][0-9][0-9]:?[0-5][0-9](:?[0-5][0-9](\.[0-9]{1,6})?)?|Z`, returning
the offset magnitude in seconds (the sign does not influence the `hour`
attribute nor the 24-hour bound). -/
def pZ : List Char → Option (Nat × List Char)
  | [] => none
  | c :: cs1 =>
    if c = 'Z' then some (0, cs1)
    else if c = '+' || c = '-' then
      match cs1 with
      | c1 :: c2 :: r2 =>
        if isDig c1 && isDig c2 then pZrest (dval c1 * 10 + dval c2) r2
        else none
      | _ => none
    else none

/-- Leap-year rule of the `datetime` module. -/
def isLeap (y : Nat) : Bool := y % 4 = 0 && (y % 100 ≠ 0 || y % 400 = 0)

/-- Days in a month, as validated by the `datetime` constructor. -/
def daysInMonth (y m : Nat) : Nat :=
  if m = 2 then (if isLeap y then 29 else 28)
  else if m = 4 || m = 6 || m = 9 || m = 11 then 30
  else 31

/-- Model of `datetime.strptime(content, '%d/%b/%Y:%H:%M:%S %z').hour`:
parse the directives in sequence, require the whole string to be consumed
(`unconverted data remains` otherwise), and apply the validations of the
`datetime` constructor: the day fits the month, the year is at least 1,
the second is at most 59, and the zone offset is strictly below 24 hours.
The returned hour is the parsed hour field, with no zone conversion. -/
def parseTimestampHour (cs : List Char) : Option Nat :=
  match pDay cs with
  | none => none
  | some (day, r1) =>
    match lit '/' r1 with
    | none => none
    | some r2 =>
      match pMon r2 with
      | none => none
      | some (mon, r3) =>
        match lit '/' r3 with
        | none => none
        | some r4 =>
          match pYear r4 with
          | none => none
          | some (year, r5) =>
            match lit ':' r5 with
            | none => none
            | some r6 =>
              match pHour r6 with
              | none => none
              | some (h, r7) =>
                match lit ':' r7 with
                | none => none
                | some r8 =>
                  match pMin r8 with
                  | none => none
                  | some (_, r9) =>
                    match lit ':' r9 with
                    | none => none
                    | some r10 =>
                      match pSec r10 with
                      | none => none
                      | some (s, r11) =>
                        match pSpaces r11 with
                        | none => none
                        | some r12 =>
                          match pZ r12 with
                          | none => none
                          | some (off, r13) =>
                            if r13 = [] ∧ day ≤ daysInMonth year mon ∧ 1 ≤ year ∧
                                s ≤ 59 ∧ off < 86400 then
                              some h
                            else none

/-- Model of the Python function `get_hour`: find the bracketed segment
and parse it as a combined-log timestamp, returning the hour; a failed
search or parse (an exception in Python) is `none`. -/
def get_hour (line : String) : Option Nat :=
  match bracketContent line.data with
  | none => none
  | some content => parseTimestampHour content

end LogAnalyzer

namespace LogAnalyzer

/-- Lookup in the association-list model of the Python dict. -/
def dlookup (k : Nat) : List (Nat × Nat) → Option Nat
  | [] => none
  | (a, v) :: t => if a = k then some v else dlookup k t

/-- One loop iteration of `histbyhour` on the association-list model of
the Python dict (keys are unique and insertion order is kept): increment
the entry of `k` in place when the key is present, otherwise append the
new key with count 1. -/
def dictIncr : List (Nat × Nat) → Nat → List (Nat × Nat)
  | [], k => [(k, 1)]
  | (a, v) :: t, k => if a = k then (a, v + 1) :: t else (a, v) :: dictIncr t k

/-- Loop of `histbyhour` over the remaining lines, with accumulator `d`;
a `get_hour` failure aborts the whole computation. -/
def histAux (d : List (Nat × Nat)) : List String → Option (List (Nat × Nat))
  | [] => some d
  | line :: rest =>
    match get_hour line with
    | none => none
    | some h => histAux (dictIncr d h) rest

/-- Model of the Python function `histbyhour`, the file replaced by the
list of its lines. -/
def histbyhour (lines : List String) : Option (List (Nat × Nat)) :=
  histAux [] lines

/-- One `set.add`: the accumulator list represents a set, adding a
present element is a no-op. -/
def setAdd (s : List String) (a : String) : List String :=
  if a ∈ s then s else s ++ [a]

/-- Loop of `ipaddreses` over the remaining lines with accumulator `s`:
a line whose user agent is classified as a bot is skipped; otherwise the
address is extracted (a failure aborting the whole computation) and added
to the set. -/
def ipAux (s : List String) : List String → Option (List String)
  | [] => some s
  | line :: rest =>
    if is_bot (get_user_agent line) then ipAux s rest
    else
      match get_ipaddr line with
      | none => none
      | some addr => ipAux (setAdd s addr) rest

/-- Model of the Python function `ipaddreses`, the file replaced by the
list of its lines. -/
def ipaddreses (lines : List String) : Option (List String) :=
  ipAux [] lines

end LogAnalyzer

namespace LogAnalyzer

/-- First line of end-to-end scenario A of the specification. -/
def lineA : String :=
  "66.249.66.35 - - [15/Sep/2023:00:18:46 +0200] \"GET /x HTTP/1.1\" 200 100 \"-\" \"Mozilla/5.0 (compatible; Googlebot/2.1; +http://www.google.com/bot.html)\""

/-- Second line of end-to-end scenario A of the specification. -/
def lineB : String :=
  "147.96.46.52 - - [10/Oct/2023:12:55:47 +0200] \"GET /y HTTP/1.1\" 404 50 \"-\" \"Mozilla/5.0 (X11; Ubuntu) Firefox/117.0\""

/-- A bot line without a leading dotted-numeric address token. -/
def botLine : String :=
  "unknownhost - - [15/Sep/2023:00:18:46 +0200] \"GET /x HTTP/1.1\" 200 100 \"-\" \"ExampleBot/1.0\""

/-- A line with no quote-space separator whose text mentions a robot. -/
def plainLine : String := "203.0.113.9 - - GET /my-robot-page"

/-- A line whose final quoted segment has exactly two characters. -/
def shortUaLine : String :=
  "1.2.3.4 - - [15/Sep/2023:00:18:46 +0200] \"GET / HTTP/1.1\" 200 1 \"-\" \"ab\""

/-- Count of lines mapping to a given hour, the reference value of the
histogram fold. -/
def hourCount (lines : List String) (k : Nat) : Nat :=
  (lines.filterMap get_hour).count k

/-- Combination of a starting lookup value and a number of further hits,
describing the dict entry after a fold segment. -/
def mergeCount (o : Option Nat) (c : Nat) : Option Nat :=
  match o with
  | some v => some (v + c)
  | none => if c = 0 then none else some c

/-- Modelled from the spec wording of the address token: one or more
groups of digits followed by a dot, then a final group of digits, i.e. a
dot-interleaving of at least two non-empty digit runs. -/
def TokenOf (p : List Char) : Prop :=
  ∃ runs : List (List Char), 2 ≤ runs.length ∧
    (∀ r ∈ runs, r ≠ [] ∧ ∀ c ∈ r, isDig c = true) ∧
    p = List.intercalate ['.'] runs

/-- Digit character of value `k`. -/
def dChar (k : Nat) : Char := Char.ofNat (48 + k)

/-- Two-digit zero-padded decimal rendering. -/
def pad2 (n : Nat) : List Char := [dChar (n / 10), dChar (n % 10)]

/-- Four-digit zero-padded decimal rendering. -/
def pad4 (n : Nat) : List Char :=
  [dChar (n / 1000), dChar (n / 100 % 10), dChar (n / 10 % 10), dChar (n % 10)]

/-- Capitalised month abbreviation as written in combined-format logs. -/
def monAbbrev (m : Nat) : List Char :=
  [['J', 'a', 'n'], ['F', 'e', 'b'], ['M', 'a', 'r'], ['A', 'p', 'r'],
   ['M', 'a', 'y'], ['J', 'u', 'n'], ['J', 'u', 'l'], ['A', 'u', 'g'],
   ['S', 'e', 'p'], ['O', 'c', 't'], ['N', 'o', 'v'], ['D', 'e', 'c']].getD (m - 1) []

/-- Canonical combined-log timestamp rendering
`dd/Mon/yyyy:hh:mm:ss Szzzz` with sign character `sgn`. -/
def tsChars (day mon year h mi s : Nat) (sgn : Char) (zh zm : Nat) : List Char :=
  pad2 day ++ '/' :: (monAbbrev mon ++ '/' :: (pad4 year ++ ':' ::
    (pad2 h ++ ':' :: (pad2 mi ++ ':' :: (pad2 s ++ ' ' :: sgn ::
      (pad2 zh ++ pad2 zm))))))

/-- Both ends of a character list avoid the characters stripped by
`get_user_agent` (vacuously true for the empty list). -/
def endsOk (cs : List Char) : Bool :=
  (match cs.head? with
   | none => true
   | some c => !isStripC c) &&
  (match cs.getLast? with
   | none => true
   | some c => !isStripC c)

end LogAnalyzer

namespace LogAnalyzer

theorem splitOnQS_ne_nil : ∀ cs : List Char, splitOnQS cs ≠ []
  | [] => by simp [splitOnQS]
  | [c] => by simp [splitOnQS]
  | c1 :: c2 :: rest => by
    simp only [splitOnQS]
    split
    · simp
    · split
      · simp
      · simp

theorem splitOnQS_no_sep : ∀ cs : List Char, hasQS cs = false → splitOnQS cs = [cs]
  | [], _ => rfl
  | [c], _ => rfl
  | c1 :: c2 :: rest, h => by
    have h2 : (c1 = '"' && c2 = ' ') = false ∧ hasQS (c2 :: rest) = false := by
      simpa [hasQS, Bool.or_eq_false_iff] using h
    simp only [splitOnQS, h2.1, Bool.false_eq_true, if_false]
    rw [splitOnQS_no_sep (c2 :: rest) h2.2]

theorem mem_setAdd (s : List String) (b a : String) :
    a ∈ setAdd s b ↔ a ∈ s ∨ a = b := by
  unfold setAdd
  by_cases hb : b ∈ s
  · rw [if_pos hb]
    constructor
    · exact Or.inl
    · rintro (h | rfl)
      · exact h
      · exact hb
  · rw [if_neg hb]
    simp

end LogAnalyzer

namespace LogAnalyzer

/-- Claim C1: on the two scenario-A lines, the histogram fold returns
exactly the mapping 0 to 1 and 12 to 1, and the non-bot address fold
returns exactly the singleton set containing 147.96.46.52. -/
theorem scenarioA_end_to_end :
    histbyhour [lineA, lineB] = some [(0, 1), (12, 1)] ∧
    ipaddreses [lineA, lineB] = some ["147.96.46.52"] := by
  constructor
  · rfl
  · rfl

/-- Claim C4: `is_bot` returns true iff its input, lowercased, contains
the substring `bot`; in particular it is case-insensitive on the given
examples and returns false on an absent or empty input. -/
theorem is_bot_characterization :
    (∀ s : String, is_bot (some s) = hasSubstr botPat (s.data.map Char.toLower)) ∧
    is_bot (some "GoogleBOT") = true ∧
    is_bot (some "googlebot") = true ∧
    is_bot (some "Mozilla/5.0 Firefox") = false ∧
    is_bot none = false ∧
    is_bot (some "") = false := by
  refine ⟨?_, by decide, by decide, by decide, rfl, rfl⟩
  intro s
  show (if s.isEmpty then false else hasSubstr botPat (s.data.map Char.toLower)) = _
  by_cases h : s.isEmpty
  · rw [if_pos h]
    rw [(String.isEmpty_iff s).mp h]
    rfl
  · rw [if_neg h]

theorem histAux_fail (L : String) (hL : get_hour L = none) :
    ∀ (xs ys : List String) (d : List (Nat × Nat)),
      histAux d (xs ++ L :: ys) = none
  | [], ys, d => by simp [histAux, hL]
  | x :: xs, ys, d => by
    simp only [List.cons_append, histAux]
    cases hx : get_hour x with
    | none => rfl
    | some h => exact histAux_fail L hL xs ys (dictIncr d h)

/-- Claim C7: a line on which hour extraction fails (no bracketed
segment, or content not matching the timestamp grammar) makes the whole
histogram computation fail: the failure propagates, the line is not
skipped, and no partial histogram is returned. -/
theorem histbyhour_fail_propagates (xs ys : List String) (L : String)
    (hL : get_hour L = none) :
    histbyhour (xs ++ L :: ys) = none :=
  histAux_fail L hL xs ys []

/-- Witness for claim C7: a concrete line with no bracketed segment fails
hour extraction, and running the histogram on a good line followed by
that line returns no partial result. -/
theorem histbyhour_fail_propagates_w :
    get_hour "203.0.113.9 - - no timestamp here" = none ∧
    histbyhour [lineA, "203.0.113.9 - - no timestamp here"] = none :=
  ⟨rfl, histbyhour_fail_propagates [lineA] [] "203.0.113.9 - - no timestamp here" rfl⟩

theorem ipAux_bot_skip (L : String) (hb : is_bot (get_user_agent L) = true) :
    ∀ (xs ys : List String) (s : List String),
      ipAux s (xs ++ L :: ys) = ipAux s (xs ++ ys)
  | [], ys, s => by simp [ipAux, hb]
  | x :: xs, ys, s => by
    simp only [List.cons_append, ipAux]
    by_cases hx : is_bot (get_user_agent x) = true
    · rw [if_pos hx, if_pos hx]
      exact ipAux_bot_skip L hb xs ys s
    · rw [if_neg hx, if_neg hx]
      cases get_ipaddr x with
      | none => rfl
      | some addr => exact ipAux_bot_skip L hb xs ys (setAdd s addr)

/-- Claim C9: a line classified as a bot is skipped before address
extraction, so it contributes nothing to `ipaddreses` and in particular
cannot make the computation fail even when it has no leading
dotted-numeric token. -/
theorem bot_line_skipped (xs ys : List String) (L : String)
    (hb : is_bot (get_user_agent L) = true) :
    ipaddreses (xs ++ L :: ys) = ipaddreses (xs ++ ys) :=
  ipAux_bot_skip L hb xs ys []

/-- Witness for claim C9: a concrete bot line without a leading
dotted-numeric token (so its address extraction would fail) is skipped
without failing the computation. -/
theorem bot_line_skipped_w :
    is_bot (get_user_agent botLine) = true ∧
    get_ipaddr botLine = none ∧
    ipaddreses [botLine] = ipaddreses [] :=
  ⟨by decide, by decide, bot_line_skipped [] [] botLine (by decide)⟩

/-- Claim C10: on a line containing no quote-space separator, the split
leaves the whole line as the last segment, so the user agent is the
entire line stripped of surrounding quotes, spaces and newlines whenever
that is longer than 2 characters, and bot classification then scans the
full line text. -/
theorem no_sep_whole_line (line : String) (h : hasQS line.data = false)
    (hl : 2 < (stripChars line.data).length) :
    get_user_agent line = some (String.mk (stripChars line.data)) ∧
    is_bot (get_user_agent line) =
      hasSubstr botPat ((stripChars line.data).map Char.toLower) := by
  have hsplit : splitOnQS line.data = [line.data] := splitOnQS_no_sep line.data h
  have hua : get_user_agent line = some (String.mk (stripChars line.data)) := by
    unfold get_user_agent
    rw [hsplit]
    have hone : [line.data].getLastD [] = line.data := rfl
    rw [hone, if_pos hl]
  refine ⟨hua, ?_⟩
  rw [hua]
  show (if (String.mk (stripChars line.data)).isEmpty then false
    else hasSubstr botPat ((String.mk (stripChars line.data)).data.map Char.toLower)) = _
  have hne : (String.mk (stripChars line.data)).isEmpty = false := by
    by_contra hc
    have : String.mk (stripChars line.data) = "" :=
      (String.isEmpty_iff _).mp (by simpa using hc)
    have : stripChars line.data = [] := by
      have := congrArg String.data this
      simpa using this
    rw [this] at hl
    simp at hl
  rw [hne]
  simp

/-- Witness for claim C10: a concrete line with no quote-space separator
and a path mentioning robot: the whole stripped line is the user agent
and the line classifies as a bot. -/
theorem no_sep_whole_line_w :
    hasQS plainLine.data = false ∧
    2 < (stripChars plainLine.data).length ∧
    (get_user_agent plainLine = some (String.mk (stripChars plainLine.data)) ∧
      is_bot (get_user_agent plainLine) =
        hasSubstr botPat ((stripChars plainLine.data).map Char.toLower)) ∧
    is_bot (get_user_agent plainLine) = true :=
  ⟨by decide, by decide, no_sep_whole_line plainLine (by decide) (by decide), by decide⟩

end LogAnalyzer

namespace LogAnalyzer

theorem ipAux_char : ∀ (lines : List String) (s : List String),
    (∀ L ∈ lines, is_bot (get_user_agent L) = false → (get_ipaddr L).isSome) →
    ∃ t, ipAux s lines = some t ∧
      ∀ a, a ∈ t ↔ a ∈ s ∨
        ∃ L ∈ lines, is_bot (get_user_agent L) = false ∧ get_ipaddr L = some a
  | [], s, _ => ⟨s, rfl, by simp⟩
  | l :: rest, s, hok => by
    by_cases hb : is_bot (get_user_agent l) = true
    · obtain ⟨t, ht, hmem⟩ :=
        ipAux_char rest s (fun L hL => hok L (List.mem_cons_of_mem l hL))
      refine ⟨t, ?_, ?_⟩
      · simpa [ipAux, hb] using ht
      · intro a
        rw [hmem a]
        simp only [List.mem_cons, exists_eq_or_imp, hb]
        simp
    · have hb2 : is_bot (get_user_agent l) = false := by
        simpa using hb
      obtain ⟨addr, haddr⟩ :=
        Option.isSome_iff_exists.mp (hok l (List.mem_cons_self l rest) hb2)
      obtain ⟨t, ht, hmem⟩ :=
        ipAux_char rest (setAdd s addr) (fun L hL => hok L (List.mem_cons_of_mem l hL))
      refine ⟨t, ?_, ?_⟩
      · simpa [ipAux, hb2, haddr] using ht
      · intro a
        rw [hmem a, mem_setAdd]
        simp only [List.mem_cons, exists_eq_or_imp, hb2, haddr, true_and,
          Option.some.injEq]
        constructor
        · rintro ((h | rfl) | h)
          · exact Or.inl h
          · exact Or.inr (Or.inl rfl)
          · exact Or.inr (Or.inr h)
        · rintro (h | (rfl | h))
          · exact Or.inl (Or.inl h)
          · exact Or.inl (Or.inr rfl)
          · exact Or.inr h

/-- Claim C2: when every non-bot line has an extractable address, the
non-bot address fold returns exactly the set of addresses of non-bot
lines; an absent user agent classifies as non-bot (so such lines are
included), and duplicate insertions leave the set unchanged (the result
is characterised purely by membership). -/
theorem ipaddreses_characterization (lines : List String)
    (hok : ∀ L ∈ lines, is_bot (get_user_agent L) = false → (get_ipaddr L).isSome) :
    is_bot none = false ∧
    ∃ t, ipaddreses lines = some t ∧
      ∀ a, a ∈ t ↔ ∃ L ∈ lines, is_bot (get_user_agent L) = false ∧ get_ipaddr L = some a := by
  refine ⟨rfl, ?_⟩
  obtain ⟨t, ht, hmem⟩ := ipAux_char lines [] hok
  refine ⟨t, ht, fun a => ?_⟩
  rw [hmem a]
  simp

/-- Witness for claim C2: the characterization applied to the two
scenario-A lines. -/
theorem ipaddreses_characterization_w :
    (∀ L ∈ [lineA, lineB], is_bot (get_user_agent L) = false → (get_ipaddr L).isSome) ∧
    (is_bot none = false ∧
      ∃ t, ipaddreses [lineA, lineB] = some t ∧
        ∀ a, a ∈ t ↔ ∃ L ∈ [lineA, lineB],
          is_bot (get_user_agent L) = false ∧ get_ipaddr L = some a) :=
  ⟨by decide, ipaddreses_characterization [lineA, lineB] (by decide)⟩

end LogAnalyzer

namespace LogAnalyzer


end LogAnalyzer

namespace LogAnalyzer

theorem dlookup_dictIncr : ∀ (d : List (Nat × Nat)) (h k : Nat),
    dlookup k (dictIncr d h) =
      if h = k then some ((dlookup k d).getD 0 + 1) else dlookup k d
  | [], h, k => by
    by_cases hk : h = k <;> simp [dictIncr, dlookup, hk]
  | (a, v) :: t, h, k => by
    by_cases hah : a = h
    · subst hah
      rw [show dictIncr ((a, v) :: t) a = (a, v + 1) :: t by simp [dictIncr]]
      by_cases hk : a = k
      · subst hk
        simp [dlookup]
      · simp [dlookup, hk]
    · rw [show dictIncr ((a, v) :: t) h = (a, v) :: dictIncr t h by simp [dictIncr, hah]]
      by_cases hak : a = k
      · subst hak
        have hhk : ¬ h = a := fun hh => hah hh.symm
        simp [dlookup, hhk]
      · simp only [dlookup, hak, if_false]
        exact dlookup_dictIncr t h k

theorem histAux_char : ∀ (lines : List String) (d : List (Nat × Nat)),
    (∀ L ∈ lines, (get_hour L).isSome) →
    ∃ d2, histAux d lines = some d2 ∧
      ∀ k, dlookup k d2 = mergeCount (dlookup k d) (hourCount lines k)
  | [], d, _ => ⟨d, rfl, by
      intro k
      simp only [hourCount, List.filterMap_nil, List.count_nil, mergeCount]
      cases dlookup k d <;> simp⟩
  | l :: rest, d, hok => by
    obtain ⟨h0, hh0⟩ :=
      Option.isSome_iff_exists.mp (hok l (List.mem_cons_self l rest))
    obtain ⟨d2, hd2, hmem⟩ :=
      histAux_char rest (dictIncr d h0) (fun L hL => hok L (List.mem_cons_of_mem l hL))
    refine ⟨d2, ?_, ?_⟩
    · simpa [histAux, hh0] using hd2
    · intro k
      rw [hmem k, dlookup_dictIncr d h0 k]
      have hcount : hourCount (l :: rest) k =
          hourCount rest k + (if h0 = k then 1 else 0) := by
        simp only [hourCount, List.filterMap_cons, hh0]
        rw [List.count_cons]
        by_cases hk : h0 = k
        · subst hk
          simp
        · have hne : (k == h0) = false := by
            simp only [beq_eq_false_iff_ne, ne_eq]
            exact fun hkh => hk hkh.symm
          simp [hne, hk]
      rw [hcount]
      by_cases hk : h0 = k
      · subst hk
        rw [if_pos rfl, if_pos rfl]
        cases hd : dlookup h0 d <;> simp [mergeCount] <;> omega
      · rw [if_neg hk, if_neg hk]
        simp

/-- Claim C8: on inputs where every required extraction succeeds, both
aggregates are order-independent: a permutation of the lines yields a
histogram with the same key set and counts, and an address set with the
same members. -/
theorem order_independent (lines lines2 : List String) (hp : lines.Perm lines2)
    (h1 : ∀ L ∈ lines, (get_hour L).isSome)
    (h2 : ∀ L ∈ lines, is_bot (get_user_agent L) = false → (get_ipaddr L).isSome) :
    (∃ d d2, histbyhour lines = some d ∧ histbyhour lines2 = some d2 ∧
      ∀ k, dlookup k d = dlookup k d2) ∧
    (∃ t t2, ipaddreses lines = some t ∧ ipaddreses lines2 = some t2 ∧
      ∀ a, a ∈ t ↔ a ∈ t2) := by
  have h1b : ∀ L ∈ lines2, (get_hour L).isSome :=
    fun L hL => h1 L (hp.mem_iff.mpr hL)
  have h2b : ∀ L ∈ lines2, is_bot (get_user_agent L) = false → (get_ipaddr L).isSome :=
    fun L hL => h2 L (hp.mem_iff.mpr hL)
  constructor
  · obtain ⟨d, hd, hmem⟩ := histAux_char lines [] h1
    obtain ⟨d2, hd2, hmem2⟩ := histAux_char lines2 [] h1b
    refine ⟨d, d2, hd, hd2, fun k => ?_⟩
    rw [hmem k, hmem2 k]
    have : hourCount lines k = hourCount lines2 k :=
      (hp.filterMap get_hour).count_eq k
    rw [this]
  · obtain ⟨t, ht, hmem⟩ := ipAux_char lines [] h2
    obtain ⟨t2, ht2, hmem2⟩ := ipAux_char lines2 [] h2b
    refine ⟨t, t2, ht, ht2, fun a => ?_⟩
    rw [hmem a, hmem2 a]
    constructor
    · rintro (h | ⟨L, hL, hb, ha⟩)
      · simp at h
      · exact Or.inr ⟨L, hp.mem_iff.mp hL, hb, ha⟩
    · rintro (h | ⟨L, hL, hb, ha⟩)
      · simp at h
      · exact Or.inr ⟨L, hp.mem_iff.mpr hL, hb, ha⟩

/-- Witness for claim C8: the two scenario-A lines swapped. -/
theorem order_independent_w :
    (∃ d d2, histbyhour [lineA, lineB] = some d ∧
      histbyhour [lineB, lineA] = some d2 ∧ ∀ k, dlookup k d = dlookup k d2) ∧
    (∃ t t2, ipaddreses [lineA, lineB] = some t ∧
      ipaddreses [lineB, lineA] = some t2 ∧ ∀ a, a ∈ t ↔ a ∈ t2) :=
  order_independent [lineA, lineB] [lineB, lineA]
    (List.Perm.swap lineB lineA []) (by decide) (by decide)

end LogAnalyzer

namespace LogAnalyzer

theorem splitOnQS_cons_sep (rest : List Char) :
    splitOnQS ('"' :: ' ' :: rest) = [] :: splitOnQS rest := by
  simp [splitOnQS]

theorem splitOnQS_cons_not_sep (c1 c2 : Char) (rest : List Char)
    (h : (decide (c1 = '"') && decide (c2 = ' ')) = false) :
    splitOnQS (c1 :: c2 :: rest) =
      match splitOnQS (c2 :: rest) with
      | hd :: t => (c1 :: hd) :: t
      | [] => [[c1]] := by
  simp only [splitOnQS, h]
  simp

theorem splitOnQS_sep_shape : ∀ (xs ys : List Char), hasQS ys = false →
    ∃ zs : List (List Char), zs ≠ [] ∧ splitOnQS (xs ++ '"' :: ' ' :: ys) = zs ++ [ys]
  | [], ys, hys => by
    refine ⟨[[]], by simp, ?_⟩
    simp only [List.nil_append]
    rw [splitOnQS_cons_sep ys, splitOnQS_no_sep ys hys]
    rfl
  | [x], ys, hys => by
    refine ⟨[[x]], by simp, ?_⟩
    have hcond : (decide (x = '"') && decide (('"' : Char) = ' ')) = false := by
      rw [show decide (('"' : Char) = ' ') = false from by decide, Bool.and_false]
    simp only [List.cons_append, List.nil_append]
    rw [splitOnQS_cons_not_sep x '"' (' ' :: ys) hcond]
    rw [splitOnQS_cons_sep ys, splitOnQS_no_sep ys hys]
  | x1 :: x2 :: xs, ys, hys => by
    by_cases hsep : (decide (x1 = '"') && decide (x2 = ' ')) = true
    · obtain ⟨h1, h2⟩ := Bool.and_eq_true_iff.mp hsep
      have hx1 : x1 = '"' := of_decide_eq_true h1
      have hx2 : x2 = ' ' := of_decide_eq_true h2
      subst hx1
      subst hx2
      obtain ⟨zs, hzs, hsplit⟩ := splitOnQS_sep_shape xs ys hys
      refine ⟨[] :: zs, by simp, ?_⟩
      simp only [List.cons_append]
      rw [splitOnQS_cons_sep (xs ++ '"' :: ' ' :: ys), hsplit]
    · have hsep2 : (decide (x1 = '"') && decide (x2 = ' ')) = false := by
        cases hb : (decide (x1 = '"') && decide (x2 = ' ')) with
        | false => rfl
        | true => exact absurd hb hsep
      obtain ⟨zs, hzs, hsplit⟩ := splitOnQS_sep_shape (x2 :: xs) ys hys
      simp only [List.cons_append] at hsplit
      cases zs with
      | nil => exact absurd rfl hzs
      | cons z0 zs2 =>
        refine ⟨(x1 :: z0) :: zs2, by simp, ?_⟩
        simp only [List.cons_append]
        rw [splitOnQS_cons_not_sep x1 x2 (xs ++ '"' :: ' ' :: ys) hsep2]
        rw [hsplit]
        rfl

end LogAnalyzer

namespace LogAnalyzer

theorem hasQS_no_quote : ∀ cs : List Char, ('"' : Char) ∉ cs →
    hasQS (cs ++ ['"']) = false
  | [], _ => rfl
  | [x], hq => by
    have hx : ¬ x = '"' := by
      intro hc
      exact hq (by simp [hc])
    simp only [List.cons_append, List.nil_append, hasQS]
    rw [show decide (('"' : Char) = ' ') = false from by decide, Bool.and_false]
    rfl
  | x1 :: x2 :: rest, hq => by
    have hx1 : ¬ x1 = '"' := by
      intro hc
      exact hq (by simp [hc])
    have hq2 : ('"' : Char) ∉ x2 :: rest := by
      intro hc
      exact hq (List.mem_cons_of_mem x1 hc)
    simp only [List.cons_append, hasQS]
    rw [show decide (x1 = '"') = false from decide_eq_false hx1, Bool.false_and]
    have := hasQS_no_quote (x2 :: rest) hq2
    simp only [List.cons_append] at this
    simp only [List.append_eq]
    rw [this]
    rfl

theorem hasQS_quoted (ua : List Char) (hq : ('"' : Char) ∉ ua)
    (hhead : ∀ c, ua.head? = some c → isStripC c = false) :
    hasQS ('"' :: ua ++ ['"']) = false := by
  cases ua with
  | nil => rfl
  | cons u0 ur =>
    have hu0 : isStripC u0 = false := hhead u0 rfl
    have hu0sp : ¬ u0 = ' ' := by
      intro hc
      rw [hc] at hu0
      simp [isStripC] at hu0
    simp only [List.cons_append, hasQS]
    rw [show decide (u0 = ' ') = false from decide_eq_false hu0sp, Bool.and_false]
    have := hasQS_no_quote (u0 :: ur) hq
    simp only [List.cons_append] at this
    simp only [List.append_eq]
    rw [this]
    rfl

theorem stripChars_quoted (ua : List Char)
    (hhead : ∀ c, ua.head? = some c → isStripC c = false)
    (hlast : ∀ c, ua.getLast? = some c → isStripC c = false) :
    stripChars ('"' :: ua ++ ['"']) = ua := by
  unfold stripChars
  have hq : isStripC '"' = true := by decide
  rw [show ('"' :: ua ++ ['"']).dropWhile isStripC = (ua ++ ['"']).dropWhile isStripC from by
    simp [List.dropWhile_cons, hq]]
  cases ua with
  | nil => rfl
  | cons u0 ur =>
    have hu0 : isStripC u0 = false := hhead u0 rfl
    rw [show ((u0 :: ur) ++ ['"']).dropWhile isStripC = u0 :: ur ++ ['"'] from by
      simp [List.dropWhile_cons, hu0]]
    rw [show (u0 :: ur ++ ['"']).reverse = '"' :: (u0 :: ur).reverse from by simp]
    rw [show ('"' :: (u0 :: ur).reverse).dropWhile isStripC =
        (u0 :: ur).reverse.dropWhile isStripC from by simp [List.dropWhile_cons, hq]]
    have hrev : (u0 :: ur).reverse.head? = (u0 :: ur).getLast? := List.head?_reverse _
    cases hrv : (u0 :: ur).reverse with
    | nil => simp at hrv
    | cons g gr =>
      have hg : isStripC g = false := by
        apply hlast
        rw [← hrev, hrv]
        rfl
      rw [show (g :: gr).dropWhile isStripC = g :: gr from by simp [List.dropWhile_cons, hg]]
      rw [← hrv, List.reverse_reverse]

/-- Claim C5 counterexample: the final quoted segment of this line is
`ab`, neither a dash nor empty, yet `get_user_agent` returns absent (the
stripped segment has length 2, not above 2), contradicting the claim that
every such line yields the exact content between the final quotes. -/
theorem get_user_agent_c5_counterexample :
    shortUaLine =
      "1.2.3.4 - - [15/Sep/2023:00:18:46 +0200] \"GET / HTTP/1.1\" 200 1 \"-" ++
        "\" \"" ++ "ab" ++ "\"" ∧
    ("ab" : String) ≠ "-" ∧ ("ab" : String) ≠ "" ∧
    get_user_agent shortUaLine = none :=
  ⟨rfl, by decide, by decide, rfl⟩

/-- Claim C5 as amended: for a line ending with a space then a quoted
user-agent segment (the segment free of quotes, its ends not strippable),
`get_user_agent` returns that exact content when it is longer than 2
characters and absent otherwise — so a dash or empty segment is absent,
and so is any other segment of length at most 2. -/
theorem get_user_agent_last_segment (q ua : String)
    (hq : ('"' : Char) ∉ ua.data) (he : endsOk ua.data = true) :
    get_user_agent (q ++ "\" \"" ++ ua ++ "\"") =
      if 2 < ua.length then some ua else none := by
  have h12 := Bool.and_eq_true_iff.mp he
  have hhead : ∀ c, ua.data.head? = some c → isStripC c = false := by
    intro c hc
    have hh := h12.1
    rw [hc] at hh
    simpa using hh
  have hlast : ∀ c, ua.data.getLast? = some c → isStripC c = false := by
    intro c hc
    have hh := h12.2
    rw [hc] at hh
    simpa using hh
  have hdata : (q ++ "\" \"" ++ ua ++ "\"").data =
      q.data ++ '"' :: ' ' :: ('"' :: ua.data ++ ['"']) := by
    simp only [String.data_append]
    simp
  obtain ⟨zs, hzs, hsplit⟩ :=
    splitOnQS_sep_shape q.data ('"' :: ua.data ++ ['"']) (hasQS_quoted ua.data hq hhead)
  unfold get_user_agent
  rw [hdata, hsplit]
  rw [show (zs ++ ['"' :: ua.data ++ ['"']]).getLastD [] = '"' :: ua.data ++ ['"'] from by
    rw [List.getLastD_eq_getLast?, List.getLast?_concat]
    rfl]
  rw [stripChars_quoted ua.data hhead hlast]
  rfl

/-- Witness for the amended claim C5: a concrete tail segment of length
above 2 is returned verbatim. -/
theorem get_user_agent_last_segment_w :
    (('"' : Char) ∉ ("AgentX/1.0" : String).data) ∧
    endsOk ("AgentX/1.0" : String).data = true ∧
    get_user_agent ("10.0.0.1 - - [t] \"GET / HTTP/1.1\" 200 1 \"-" ++ "\" \"" ++
        "AgentX/1.0" ++ "\"") =
      if 2 < ("AgentX/1.0" : String).length then some "AgentX/1.0" else none :=
  ⟨by decide, by decide,
    get_user_agent_last_segment "10.0.0.1 - - [t] \"GET / HTTP/1.1\" 200 1 \"-"
      "AgentX/1.0" (by decide) (by decide)⟩

end LogAnalyzer

namespace LogAnalyzer

theorem joinRuns_concat : ∀ (rs : List (List Char)) (last : List Char), rs ≠ [] →
    joinRuns (rs ++ [last]) = joinRuns rs ++ '.' :: last
  | [], _, hne => absurd rfl hne
  | [r], last, _ => rfl
  | r1 :: r2 :: rt, last, _ => by
    have ih := joinRuns_concat (r2 :: rt) last (by simp)
    show r1 ++ '.' :: joinRuns ((r2 :: rt) ++ [last]) =
      (r1 ++ '.' :: joinRuns (r2 :: rt)) ++ '.' :: last
    rw [ih]
    simp [List.append_assoc]

theorem joinRuns_eq_intercalate : ∀ rs : List (List Char),
    joinRuns rs = List.intercalate ['.'] rs
  | [] => rfl
  | [r] => by
    unfold List.intercalate
    simp [joinRuns]
  | r :: s :: t => by
    have ih := joinRuns_eq_intercalate (s :: t)
    show r ++ '.' :: joinRuns (s :: t) = _
    rw [ih]
    unfold List.intercalate
    simp [List.intersperse]

theorem runsAux_spec : ∀ (cs cur : List Char), cur ≠ [] →
    (∀ c ∈ cur, isDig c = true) →
    ∀ (rs : List (List Char)) (r : List Char), runsAux cur cs = (rs, r) →
      rs ≠ [] ∧ joinRuns rs ++ r = cur.reverse ++ cs ∧
        ∀ run ∈ rs, run ≠ [] ∧ ∀ c ∈ run, isDig c = true
  | [], cur, hne, hdig, rs, r, heq => by
    simp only [runsAux, Prod.mk.injEq] at heq
    obtain ⟨rfl, rfl⟩ := heq
    refine ⟨by simp, by simp [joinRuns], ?_⟩
    intro run hrun
    rw [List.mem_singleton] at hrun
    subst hrun
    refine ⟨by simpa using hne, ?_⟩
    intro c hc
    exact hdig c (List.mem_reverse.mp hc)
  | c :: rest, cur, hne, hdig, rs, r, heq => by
    unfold runsAux at heq
    by_cases hc : isDig c = true
    · rw [if_pos hc] at heq
      have ih := runsAux_spec rest (c :: cur) (by simp)
        (by
          intro x hx
          rcases List.mem_cons.mp hx with rfl | hx2
          · exact hc
          · exact hdig x hx2) rs r heq
      refine ⟨ih.1, ?_, ih.2.2⟩
      rw [ih.2.1]
      simp [List.append_assoc]
    · rw [if_neg hc] at heq
      by_cases hdot : c = '.'
      · rw [if_pos hdot] at heq
        cases rest with
        | nil =>
          simp only [Prod.mk.injEq] at heq
          obtain ⟨rfl, rfl⟩ := heq
          refine ⟨by simp, by simp [joinRuns], ?_⟩
          intro run hrun
          rw [List.mem_singleton] at hrun
          subst hrun
          exact ⟨by simpa using hne, fun x hx => hdig x (List.mem_reverse.mp hx)⟩
        | cons d rest2 =>
          have heq2 : (if isDig d = true then
              (match runsAux [d] rest2 with
               | (rs1, r1) => (cur.reverse :: rs1, r1))
            else ([cur.reverse], c :: d :: rest2)) = (rs, r) := heq
          by_cases hd : isDig d = true
          · rw [if_pos hd] at heq2
            cases hra : runsAux [d] rest2 with
            | mk rs1 r1 =>
              rw [hra] at heq2
              simp only [Prod.mk.injEq] at heq2
              obtain ⟨rfl, rfl⟩ := heq2
              have ih := runsAux_spec rest2 [d] (by simp)
                (by
                  intro x hx
                  rw [List.mem_singleton] at hx
                  subst hx
                  exact hd) rs1 r1 hra
              refine ⟨by simp, ?_, ?_⟩
              · cases hrs1 : rs1 with
                | nil => exact absurd hrs1 ih.1
                | cons s1 t1 =>
                  rw [show joinRuns (cur.reverse :: s1 :: t1) =
                      cur.reverse ++ '.' :: joinRuns (s1 :: t1) from rfl]
                  have h2 := ih.2.1
                  rw [hrs1] at h2
                  simp only [List.reverse_cons, List.reverse_nil, List.nil_append,
                    List.singleton_append] at h2
                  subst hdot
                  simp [List.append_assoc, h2]
              · intro run hrun
                rcases List.mem_cons.mp hrun with rfl | hrun2
                · exact ⟨by simpa using hne, fun x hx => hdig x (List.mem_reverse.mp hx)⟩
                · exact ih.2.2 run hrun2
          · rw [if_neg hd] at heq2
            simp only [Prod.mk.injEq] at heq2
            obtain ⟨rfl, rfl⟩ := heq2
            refine ⟨by simp, by simp [joinRuns], ?_⟩
            intro run hrun
            rw [List.mem_singleton] at hrun
            subst hrun
            exact ⟨by simpa using hne, fun x hx => hdig x (List.mem_reverse.mp hx)⟩
      · rw [if_neg hdot] at heq
        simp only [Prod.mk.injEq] at heq
        obtain ⟨rfl, rfl⟩ := heq
        refine ⟨by simp, by simp [joinRuns], ?_⟩
        intro run hrun
        rw [List.mem_singleton] at hrun
        subst hrun
        exact ⟨by simpa using hne, fun x hx => hdig x (List.mem_reverse.mp hx)⟩

theorem splitRuns_spec (cs : List Char) :
    ∀ (rs : List (List Char)) (r : List Char), splitRuns cs = (rs, r) →
      joinRuns rs ++ r = cs ∧ ∀ run ∈ rs, run ≠ [] ∧ ∀ c ∈ run, isDig c = true := by
  intro rs r heq
  cases cs with
  | nil =>
    simp only [splitRuns, Prod.mk.injEq] at heq
    obtain ⟨rfl, rfl⟩ := heq
    exact ⟨rfl, by simp⟩
  | cons c rest =>
    simp only [splitRuns] at heq
    by_cases hc : isDig c = true
    · rw [if_pos hc] at heq
      have := runsAux_spec rest [c] (by simp)
        (by
          intro x hx
          rw [List.mem_singleton] at hx
          subst hx
          exact hc) rs r heq
      exact ⟨by simpa using this.2.1, this.2.2⟩
    · rw [if_neg hc] at heq
      simp only [Prod.mk.injEq] at heq
      obtain ⟨rfl, rfl⟩ := heq
      exact ⟨rfl, by simp⟩

end LogAnalyzer

namespace LogAnalyzer

theorem isDig_isWordChar (c : Char) (h : isDig c = true) : isWordChar c = true := by
  have hd : c.isDigit = true := h
  simp [isWordChar, Char.isAlphanum, hd]

theorem boundaryOk_not_dig (q : List Char) (hb : boundaryOk q = true) :
    ∀ c, q.head? = some c → isDig c = false := by
  intro c hc
  cases q with
  | nil => simp at hc
  | cons q0 qt =>
    have hq0 : q0 = c := by simpa using hc
    subst hq0
    simp only [boundaryOk, Bool.not_eq_true'] at hb
    cases hd : isDig q0 with
    | false => rfl
    | true =>
      rw [isDig_isWordChar q0 hd] at hb
      exact absurd hb (by simp)

theorem boundaryOk_dot (xs : List Char) : boundaryOk ('.' :: xs) = true := by
  simp only [boundaryOk]
  decide

theorem runsAux_cons_eq (cur : List Char) (c : Char) (rest : List Char) :
    runsAux cur (c :: rest) =
      if isDig c = true then runsAux (c :: cur) rest
      else if c = '.' then
        (match rest with
         | d :: rest2 =>
           if isDig d = true then
             (match runsAux [d] rest2 with
              | (rs, r) => (cur.reverse :: rs, r))
           else ([cur.reverse], c :: rest)
         | [] => ([cur.reverse], [c]))
      else ([cur.reverse], c :: rest) := by
  conv_lhs => unfold runsAux

theorem splitRuns_cons_dig (c : Char) (rest : List Char) (hc : isDig c = true) :
    splitRuns (c :: rest) = runsAux [c] rest := by
  show (if isDig c = true then runsAux [c] rest else ([], c :: rest)) = runsAux [c] rest
  rw [if_pos hc]

theorem runsAux_cons_dig (cur : List Char) (x : Char) (tail : List Char)
    (hx : isDig x = true) :
    runsAux cur (x :: tail) = runsAux (x :: cur) tail := by
  rw [runsAux_cons_eq, if_pos hx]

theorem runsAux_dot : ∀ (rmid cur : List Char) (d : Char) (tl : List Char),
    (∀ c ∈ rmid, isDig c = true) → isDig d = true →
    runsAux cur (rmid ++ '.' :: d :: tl) =
      ((cur.reverse ++ rmid) :: (runsAux [d] tl).1, (runsAux [d] tl).2)
  | [], cur, d, tl, _, hd => by
    cases hra : runsAux [d] tl with
    | mk rs1 r1 =>
      simp only [List.nil_append]
      have hstep : runsAux cur ('.' :: d :: tl) = (cur.reverse :: rs1, r1) := by
        unfold runsAux
        rw [if_neg (by decide : ¬ isDig '.' = true)]
        rw [if_pos (rfl : ('.' : Char) = '.')]
        have heq2 : (match d :: tl with
          | d1 :: rest2 =>
            if isDig d1 = true then
              match runsAux [d1] rest2 with
              | (rs1, r1) => (cur.reverse :: rs1, r1)
            else ([cur.reverse], '.' :: d :: tl)
          | [] => ([cur.reverse], ['.'])) =
          (if isDig d = true then
            (match runsAux [d] tl with
             | (rs2, r2) => (cur.reverse :: rs2, r2))
          else ([cur.reverse], '.' :: d :: tl)) := rfl
        rw [heq2, if_pos hd, hra]
      rw [hstep]
      simp
  | x :: rmid2, cur, d, tl, hdig, hd => by
    cases hra : runsAux [d] tl with
    | mk rs1 r1 =>
      have hx : isDig x = true := hdig x (List.mem_cons_self x rmid2)
      have ih := runsAux_dot rmid2 (x :: cur) d tl
        (fun c hc => hdig c (List.mem_cons_of_mem x hc)) hd
      rw [hra] at ih
      show runsAux cur (x :: (rmid2 ++ '.' :: d :: tl)) = _
      rw [runsAux_cons_dig cur x _ hx, ih]
      simp [List.append_assoc]

theorem splitRuns_dot (rr : List Char) (d : Char) (tl : List Char)
    (hne : rr ≠ []) (hdig : ∀ c ∈ rr, isDig c = true) (hd : isDig d = true) :
    splitRuns (rr ++ '.' :: d :: tl) =
      (rr :: (splitRuns (d :: tl)).1, (splitRuns (d :: tl)).2) := by
  cases rr with
  | nil => exact absurd rfl hne
  | cons r0 rt =>
    have h0 : isDig r0 = true := hdig r0 (List.mem_cons_self r0 rt)
    show splitRuns (r0 :: (rt ++ '.' :: d :: tl)) = _
    rw [splitRuns_cons_dig r0 _ h0]
    rw [runsAux_dot rt [r0] d tl (fun c hc => hdig c (List.mem_cons_of_mem r0 hc)) hd]
    rw [splitRuns_cons_dig d tl hd]
    simp

theorem runsAux_stop : ∀ (rmid cur : List Char) (q : List Char),
    (∀ c ∈ rmid, isDig c = true) →
    (∀ c, q.head? = some c → isDig c = false) →
    (∀ q2 c, q = '.' :: q2 → q2.head? = some c → isDig c = false) →
    runsAux cur (rmid ++ q) = ([cur.reverse ++ rmid], q)
  | [], cur, q, _, hq1, hq2 => by
    simp only [List.nil_append, List.append_nil]
    cases q with
    | nil => simp [runsAux]
    | cons qc q2 =>
      have hqc : isDig qc = false := hq1 qc rfl
      unfold runsAux
      rw [if_neg (by simp [hqc])]
      by_cases hdot : qc = '.'
      · rw [if_pos hdot]
        cases q2 with
        | nil => rw [hdot]
        | cons d q3 =>
          have hd : isDig d = false := hq2 (d :: q3) d (by rw [hdot]) rfl
          have heq2 : (match d :: q3 with
            | d1 :: rest2 =>
              if isDig d1 = true then
                match runsAux [d1] rest2 with
                | (rs1, r1) => (cur.reverse :: rs1, r1)
              else ([cur.reverse], qc :: d :: q3)
            | [] => ([cur.reverse], [qc])) =
            (if isDig d = true then
              (match runsAux [d] q3 with
               | (rs1, r1) => (cur.reverse :: rs1, r1))
            else ([cur.reverse], qc :: d :: q3)) := rfl
          rw [heq2, if_neg (by simp [hd])]
      · rw [if_neg hdot]
  | x :: rmid2, cur, q, hdig, hq1, hq2 => by
    have hx : isDig x = true := hdig x (List.mem_cons_self x rmid2)
    show runsAux cur (x :: (rmid2 ++ q)) = _
    unfold runsAux
    rw [if_pos hx]
    rw [runsAux_stop rmid2 (x :: cur) q (fun c hc => hdig c (List.mem_cons_of_mem x hc)) hq1 hq2]
    simp [List.append_assoc]

theorem splitRuns_stop (rr : List Char) (q : List Char)
    (hne : rr ≠ []) (hdig : ∀ c ∈ rr, isDig c = true)
    (hq1 : ∀ c, q.head? = some c → isDig c = false)
    (hq2 : ∀ q2 c, q = '.' :: q2 → q2.head? = some c → isDig c = false) :
    splitRuns (rr ++ q) = ([rr], q) := by
  cases rr with
  | nil => exact absurd rfl hne
  | cons r0 rt =>
    have h0 : isDig r0 = true := hdig r0 (List.mem_cons_self r0 rt)
    show splitRuns (r0 :: (rt ++ q)) = _
    rw [splitRuns_cons_dig r0 _ h0]
    rw [runsAux_stop rt [r0] q (fun c hc => hdig c (List.mem_cons_of_mem r0 hc)) hq1 hq2]
    simp

theorem splitRuns_fst_ne_nil (d : Char) (tl : List Char) (hd : isDig d = true) :
    (splitRuns (d :: tl)).1 ≠ [] := by
  cases hra : runsAux [d] tl with
  | mk rs1 r1 =>
    have hspec := (runsAux_spec tl [d] (by simp)
      (by
        intro x hx
        rw [List.mem_singleton] at hx
        subst hx
        exact hd) rs1 r1 hra).1
    rw [splitRuns_cons_dig d tl hd, hra]
    exact hspec

end LogAnalyzer

namespace LogAnalyzer

theorem splitRuns_complete : ∀ (runs2 : List (List Char)) (q : List Char),
    2 ≤ runs2.length →
    (∀ r ∈ runs2, r ≠ [] ∧ ∀ c ∈ r, isDig c = true) →
    boundaryOk q = true →
    2 ≤ (splitRuns (joinRuns runs2 ++ q)).1.length ∧
      (boundaryOk (splitRuns (joinRuns runs2 ++ q)).2 = true ∨
        3 ≤ (splitRuns (joinRuns runs2 ++ q)).1.length)
  | [], _, hlen, _, _ => by simp at hlen
  | [_], _, hlen, _, _ => by simp at hlen
  | [r1, r2], q, _, hwf, hq => by
    have hr1 := hwf r1 (by simp)
    have hr2 := hwf r2 (by simp)
    obtain ⟨d, r2t, rfl⟩ : ∃ d r2t, r2 = d :: r2t := by
      cases r2 with
      | nil => exact absurd rfl hr2.1
      | cons a b => exact ⟨a, b, rfl⟩
    have hd : isDig d = true := hr2.2 d (by simp)
    have hshape : joinRuns [r1, d :: r2t] ++ q = r1 ++ '.' :: d :: (r2t ++ q) := by
      show (r1 ++ '.' :: joinRuns [d :: r2t]) ++ q = _
      show (r1 ++ '.' :: (d :: r2t)) ++ q = _
      simp [List.append_assoc]
    rw [hshape]
    by_cases hdq : ∃ d2 q2, q = '.' :: d2 :: q2 ∧ isDig d2 = true
    · obtain ⟨d2, q2, rfl, hd2⟩ := hdq
      rw [splitRuns_dot r1 d (r2t ++ '.' :: d2 :: q2) hr1.1 hr1.2 hd]
      rw [show d :: (r2t ++ '.' :: d2 :: q2) = (d :: r2t) ++ '.' :: d2 :: q2 from rfl]
      rw [splitRuns_dot (d :: r2t) d2 q2 (by simp) hr2.2 hd2]
      have hne2 := splitRuns_fst_ne_nil d2 q2 hd2
      cases hX : (splitRuns (d2 :: q2)).1 with
      | nil => exact absurd hX hne2
      | cons a b =>
        constructor
        · simp
        · right
          simp
    · have hq1 : ∀ c, q.head? = some c → isDig c = false := boundaryOk_not_dig q hq
      have hq2 : ∀ q2 c, q = '.' :: q2 → q2.head? = some c → isDig c = false := by
        intro q2 c hq' hc
        cases q2 with
        | nil => simp at hc
        | cons a b =>
          have ha : a = c := by simpa using hc
          subst ha
          cases hda : isDig a with
          | false => rfl
          | true => exact absurd ⟨a, b, hq', hda⟩ hdq
      rw [splitRuns_dot r1 d (r2t ++ q) hr1.1 hr1.2 hd]
      rw [show d :: (r2t ++ q) = (d :: r2t) ++ q from rfl]
      rw [splitRuns_stop (d :: r2t) q (by simp) hr2.2 hq1 hq2]
      constructor
      · simp
      · left
        simpa using hq
  | r1 :: r2 :: r3 :: rt, q, _, hwf, hq => by
    have hr1 := hwf r1 (by simp)
    have hr2 := hwf r2 (by simp)
    obtain ⟨d, r2t, rfl⟩ : ∃ d r2t, r2 = d :: r2t := by
      cases r2 with
      | nil => exact absurd rfl hr2.1
      | cons a b => exact ⟨a, b, rfl⟩
    have hd : isDig d = true := hr2.2 d (by simp)
    have hshape2 : joinRuns ((d :: r2t) :: r3 :: rt) ++ q =
        d :: (r2t ++ '.' :: (joinRuns (r3 :: rt) ++ q)) := by
      show ((d :: r2t) ++ '.' :: joinRuns (r3 :: rt)) ++ q = _
      simp [List.append_assoc]
    have hshape : joinRuns (r1 :: (d :: r2t) :: r3 :: rt) ++ q =
        r1 ++ '.' :: d :: (r2t ++ '.' :: (joinRuns (r3 :: rt) ++ q)) := by
      show (r1 ++ '.' :: joinRuns ((d :: r2t) :: r3 :: rt)) ++ q = _
      rw [← hshape2]
      simp [List.append_assoc]
    have ih := splitRuns_complete ((d :: r2t) :: r3 :: rt) q (by simp)
      (fun r hr => hwf r (List.mem_cons_of_mem r1 hr)) hq
    rw [hshape]
    rw [splitRuns_dot r1 d (r2t ++ '.' :: (joinRuns (r3 :: rt) ++ q)) hr1.1 hr1.2 hd]
    rw [show d :: (r2t ++ '.' :: (joinRuns (r3 :: rt) ++ q)) =
        joinRuns ((d :: r2t) :: r3 :: rt) ++ q from hshape2.symm]
    have h1 := ih.1
    constructor
    · simp only [List.length_cons]
      omega
    · right
      simp only [List.length_cons]
      omega

end LogAnalyzer

namespace LogAnalyzer

theorem get_ipaddr_eq (line : String) (runs : List (List Char)) (rest : List Char)
    (h : splitRuns line.data = (runs, rest)) :
    get_ipaddr line =
      if runs.length < 2 then none
      else if boundaryOk rest = true then some (String.mk (joinRuns runs))
      else if 3 ≤ runs.length then some (String.mk (joinRuns runs.dropLast))
      else none := by
  unfold get_ipaddr
  rw [h]

/-- Claim C6 counterexample: the line `1.2a` begins with the
dotted-numeric token `1.2` anchored at position 0, yet `get_ipaddr`
raises (returns `none`) because the token is immediately followed by a
word character, failing the trailing word-boundary `\b` of the pattern —
so the claim that extraction succeeds exactly on lines beginning with
such a token is false. -/
theorem get_ipaddr_c6_counterexample :
    (∃ p q, ("1.2a" : String).data = p ++ q ∧ TokenOf p) ∧
    get_ipaddr "1.2a" = none :=
  ⟨⟨['1', '.', '2'], ['a'], rfl, ⟨[['1'], ['2']], by decide, by decide, rfl⟩⟩, rfl⟩

/-- Claim C6 as amended: `get_ipaddr` succeeds exactly on lines having a
prefix of the form digits(.digits)+ that ends at a word boundary (next
character, if any, not a letter, digit or underscore — possibly after
discarding trailing dot-groups), and the returned string is always such
an anchored dotted-numeric token whose end in the line is a word
boundary. -/
theorem get_ipaddr_characterization (line : String) :
    ((get_ipaddr line).isSome ↔
      ∃ p q, line.data = p ++ q ∧ TokenOf p ∧ boundaryOk q = true) ∧
    ∀ r, get_ipaddr line = some r →
      ∃ q, line.data = r.data ++ q ∧ TokenOf r.data ∧ boundaryOk q = true := by
  cases hsr : splitRuns line.data with
  | mk runs rest =>
    have hip := get_ipaddr_eq line runs rest hsr
    have hspec := splitRuns_spec line.data runs rest hsr
    have hforward : ∀ r, get_ipaddr line = some r →
        ∃ q, line.data = r.data ++ q ∧ TokenOf r.data ∧ boundaryOk q = true := by
      intro r hr
      rw [hip] at hr
      by_cases h2 : runs.length < 2
      · rw [if_pos h2] at hr
        exact absurd hr (by simp)
      · rw [if_neg h2] at hr
        by_cases hb : boundaryOk rest = true
        · rw [if_pos hb] at hr
          have hrr : r = String.mk (joinRuns runs) := by
            injection hr with h
            exact h.symm
          subst hrr
          refine ⟨rest, ?_, ?_, hb⟩
          · rw [← hspec.1]
          · exact ⟨runs, by omega, hspec.2, joinRuns_eq_intercalate runs⟩
        · rw [if_neg hb] at hr
          by_cases h3 : 3 ≤ runs.length
          · rw [if_pos h3] at hr
            have hrr : r = String.mk (joinRuns runs.dropLast) := by
              injection hr with h
              exact h.symm
            subst hrr
            have hne : runs ≠ [] := by
              intro hcontra
              rw [hcontra] at h3
              simp at h3
            have hdne : runs.dropLast ≠ [] := by
              have hld := List.length_dropLast runs
              intro hcontra
              rw [hcontra] at hld
              simp at hld
              omega
            have hsplit := List.dropLast_append_getLast hne
            have hjoin : joinRuns runs =
                joinRuns runs.dropLast ++ '.' :: runs.getLast hne := by
              conv_lhs => rw [← hsplit]
              exact joinRuns_concat runs.dropLast (runs.getLast hne) hdne
            refine ⟨'.' :: runs.getLast hne ++ rest, ?_, ?_, ?_⟩
            · rw [← hspec.1, hjoin]
              simp [List.append_assoc]
            · refine ⟨runs.dropLast, ?_, ?_, joinRuns_eq_intercalate _⟩
              · have hld := List.length_dropLast runs
                omega
              · intro run hrun
                apply hspec.2
                rw [← hsplit]
                exact List.mem_append_left _ hrun
            · exact boundaryOk_dot _
          · rw [if_neg h3] at hr
            exact absurd hr (by simp)
    refine ⟨⟨?_, ?_⟩, hforward⟩
    · intro hsome
      obtain ⟨r, hr⟩ := Option.isSome_iff_exists.mp hsome
      obtain ⟨q, hq1, hq2, hq3⟩ := hforward r hr
      exact ⟨r.data, q, hq1, hq2, hq3⟩
    · rintro ⟨p, q, hdec, ⟨runs2, hlen2, hwf2, hp⟩, hbq⟩
      have hline : line.data = joinRuns runs2 ++ q := by
        rw [hdec, hp, joinRuns_eq_intercalate]
      have hcomp := splitRuns_complete runs2 q hlen2 hwf2 hbq
      rw [← hline, hsr] at hcomp
      have hcomp1 : 2 ≤ runs.length := hcomp.1
      have hcomp2 : boundaryOk rest = true ∨ 3 ≤ runs.length := hcomp.2
      rw [hip]
      rw [if_neg (show ¬ runs.length < 2 from by omega)]
      by_cases hb : boundaryOk rest = true
      · rw [if_pos hb]
        simp
      · rw [if_neg hb]
        rcases hcomp2 with hcb | h3
        · exact absurd hcb hb
        · rw [if_pos h3]
          simp

/-- Witness for the amended claim C6: a concrete address line, its
returned token, and the decomposition with a word boundary. -/
theorem get_ipaddr_characterization_w :
    get_ipaddr "147.96.46.52 - - rest" = some "147.96.46.52" ∧
    (∃ q, ("147.96.46.52 - - rest" : String).data =
        ("147.96.46.52" : String).data ++ q ∧
      TokenOf ("147.96.46.52" : String).data ∧ boundaryOk q = true) :=
  ⟨rfl, (get_ipaddr_characterization "147.96.46.52 - - rest").2 "147.96.46.52" rfl⟩

end LogAnalyzer

namespace LogAnalyzer

theorem isDig_dChar (k : Nat) (hk : k ≤ 9) : isDig (dChar k) = true := by
  interval_cases k <;> decide

theorem dval_dChar (k : Nat) (hk : k ≤ 9) : dval (dChar k) = k := by
  interval_cases k <;> decide

theorem dChar_ne_bad (k : Nat) (hk : k ≤ 9) : ¬ dChar k = ']' ∧ ¬ dChar k = '\n' := by
  interval_cases k <;> exact ⟨by decide, by decide⟩

theorem monAbbrev_ne_bad (m : Nat) (h1 : 1 ≤ m) (h2 : m ≤ 12) :
    ∀ c ∈ monAbbrev m, ¬ c = ']' ∧ ¬ c = '\n' := by
  interval_cases m <;> decide

theorem daysInMonth_le (y m : Nat) : daysInMonth y m ≤ 31 := by
  unfold daysInMonth
  split_ifs <;> omega

theorem pDay_pad2 (r : List Char) (d : Nat) (h1 : 1 ≤ d) (h2 : d ≤ 31) :
    pDay (pad2 d ++ r) = some (d, r) := by
  interval_cases d <;> rfl

theorem pMon_abbrev (r : List Char) (m : Nat) (h1 : 1 ≤ m) (h2 : m ≤ 12) :
    pMon (monAbbrev m ++ r) = some (m, r) := by
  interval_cases m <;> rfl

theorem pYear_pad4 (r : List Char) (y : Nat) (hy : y ≤ 9999) :
    pYear (pad4 y ++ r) = some (y, r) := by
  have h1 : y / 1000 ≤ 9 := by omega
  have h2 : y / 100 % 10 ≤ 9 := by omega
  have h3 : y / 10 % 10 ≤ 9 := by omega
  have h4 : y % 10 ≤ 9 := by omega
  have hval : ((dval (dChar (y / 1000)) * 10 + dval (dChar (y / 100 % 10))) * 10 +
      dval (dChar (y / 10 % 10))) * 10 + dval (dChar (y % 10)) = y := by
    rw [dval_dChar _ h1, dval_dChar _ h2, dval_dChar _ h3, dval_dChar _ h4]
    omega
  show pYear (dChar (y / 1000) :: dChar (y / 100 % 10) :: dChar (y / 10 % 10) ::
    dChar (y % 10) :: r) = some (y, r)
  unfold pYear
  simp only []
  rw [hval, isDig_dChar _ h1, isDig_dChar _ h2, isDig_dChar _ h3, isDig_dChar _ h4]
  simp

theorem pHour_pad2 (r : List Char) (h : Nat) (hh : h ≤ 23) :
    pHour (pad2 h ++ r) = some (h, r) := by
  interval_cases h <;> rfl

theorem pMin_pad2 (r : List Char) (m : Nat) (hm : m ≤ 59) :
    pMin (pad2 m ++ r) = some (m, r) := by
  interval_cases m <;> rfl

theorem pSec_pad2 (r : List Char) (s : Nat) (hs : s ≤ 59) :
    pSec (pad2 s ++ r) = some (s, r) := by
  interval_cases s <;> rfl

theorem lit_self (c : Char) (r : List Char) : lit c (c :: r) = some r := by
  unfold lit
  simp

theorem pSpaces_space (r : List Char)
    (hr : ∀ c, r.head? = some c → isPySpace c = false) :
    pSpaces (' ' :: r) = some r := by
  unfold pSpaces
  simp only []
  rw [if_pos (by decide : isPySpace ' ' = true)]
  cases r with
  | nil => rfl
  | cons a t =>
    rw [List.dropWhile_cons, if_neg (by simp [hr a rfl])]

theorem pZrest_pad2 (hh zm : Nat) (hzm : zm ≤ 59) :
    pZrest hh (pad2 zm) = some (hh * 3600 + zm * 60, []) := by
  interval_cases zm <;> rfl

theorem pZ_sgn (zh zm : Nat) (sgn : Char) (hsgn : sgn = '+' ∨ sgn = '-')
    (hzh : zh ≤ 23) (hzm : zm ≤ 59) :
    pZ (sgn :: (pad2 zh ++ pad2 zm)) = some (zh * 3600 + zm * 60, []) := by
  have h9a : zh / 10 ≤ 9 := by omega
  have h9b : zh % 10 ≤ 9 := by omega
  have key : ∀ sg : Char, ¬ sg = 'Z' → (sg = '+' || sg = '-') = true →
      pZ (sg :: (pad2 zh ++ pad2 zm)) = some (zh * 3600 + zm * 60, []) := by
    intro sg hz hpm
    show pZ (sg :: (dChar (zh / 10) :: dChar (zh % 10) :: pad2 zm)) = _
    unfold pZ
    simp only []
    rw [if_neg hz, if_pos hpm]
    rw [isDig_dChar _ h9a, isDig_dChar _ h9b]
    rw [if_pos (by simp : (true && true) = true)]
    rw [dval_dChar _ h9a, dval_dChar _ h9b]
    rw [show zh / 10 * 10 + zh % 10 = zh from by omega]
    exact pZrest_pad2 zh zm hzm
  rcases hsgn with rfl | rfl
  · exact key '+' (by decide) (by decide)
  · exact key '-' (by decide) (by decide)

end LogAnalyzer

namespace LogAnalyzer

theorem pad2_ne_bad (n : Nat) (hn : n ≤ 99) :
    ∀ c ∈ pad2 n, ¬ c = ']' ∧ ¬ c = '\n' := by
  intro c hc
  simp only [pad2, List.mem_cons, List.not_mem_nil, or_false] at hc
  rcases hc with rfl | rfl
  · exact dChar_ne_bad _ (by omega)
  · exact dChar_ne_bad _ (by omega)

theorem pad4_ne_bad (n : Nat) (hn : n ≤ 9999) :
    ∀ c ∈ pad4 n, ¬ c = ']' ∧ ¬ c = '\n' := by
  intro c hc
  simp only [pad4, List.mem_cons, List.not_mem_nil, or_false] at hc
  rcases hc with rfl | rfl | rfl | rfl
  · exact dChar_ne_bad _ (by omega)
  · exact dChar_ne_bad _ (by omega)
  · exact dChar_ne_bad _ (by omega)
  · exact dChar_ne_bad _ (by omega)

theorem tsChars_no_bad (day mon year h mi s zh zm : Nat) (sgn : Char)
    (hday : day ≤ 31) (hmon1 : 1 ≤ mon) (hmon2 : mon ≤ 12) (hyear : year ≤ 9999)
    (hh : h ≤ 23) (hmi : mi ≤ 59) (hs : s ≤ 59) (hzh : zh ≤ 23) (hzm : zm ≤ 59)
    (hsgn : sgn = '+' ∨ sgn = '-') :
    ∀ c ∈ tsChars day mon year h mi s sgn zh zm, ¬ c = ']' ∧ ¬ c = '\n' := by
  intro c hc
  simp only [tsChars] at hc
  rcases List.mem_append.mp hc with h1 | h2
  · exact pad2_ne_bad day (by omega) c h1
  · rcases List.mem_cons.mp h2 with rfl | h3
    · exact ⟨by decide, by decide⟩
    · rcases List.mem_append.mp h3 with h4 | h5
      · exact monAbbrev_ne_bad mon hmon1 hmon2 c h4
      · rcases List.mem_cons.mp h5 with rfl | h6
        · exact ⟨by decide, by decide⟩
        · rcases List.mem_append.mp h6 with h7 | h8
          · exact pad4_ne_bad year hyear c h7
          · rcases List.mem_cons.mp h8 with rfl | h9
            · exact ⟨by decide, by decide⟩
            · rcases List.mem_append.mp h9 with h10 | h11
              · exact pad2_ne_bad h (by omega) c h10
              · rcases List.mem_cons.mp h11 with rfl | h12
                · exact ⟨by decide, by decide⟩
                · rcases List.mem_append.mp h12 with h13 | h14
                  · exact pad2_ne_bad mi (by omega) c h13
                  · rcases List.mem_cons.mp h14 with rfl | h15
                    · exact ⟨by decide, by decide⟩
                    · rcases List.mem_append.mp h15 with h16 | h17
                      · exact pad2_ne_bad s (by omega) c h16
                      · rcases List.mem_cons.mp h17 with rfl | h18
                        · exact ⟨by decide, by decide⟩
                        · rcases List.mem_cons.mp h18 with rfl | h19
                          · rcases hsgn with rfl | rfl
                            · exact ⟨by decide, by decide⟩
                            · exact ⟨by decide, by decide⟩
                          · rcases List.mem_append.mp h19 with h20 | h21
                            · exact pad2_ne_bad zh (by omega) c h20
                            · exact pad2_ne_bad zm (by omega) c h21

theorem tsChars_ne_nil (day mon year h mi s zh zm : Nat) (sgn : Char) :
    tsChars day mon year h mi s sgn zh zm ≠ [] := by
  simp [tsChars, pad2]

theorem bracketContent_cons_eq (c : Char) (rest : List Char) :
    bracketContent (c :: rest) =
      if c = '[' then
        (match seekClose (rest.takeWhile (fun x => !(x = '\n'))) with
         | some content => some content
         | none => bracketContent rest)
      else bracketContent rest := by
  conv_lhs => unfold bracketContent

theorem seekClose_eq (seg res : List Char)
    (h : seg.reverse.dropWhile (fun c => !(c = ']')) = ']' :: res) (hres : res ≠ []) :
    seekClose seg = some res.reverse := by
  unfold seekClose
  rw [h]
  simp only []
  rw [if_neg hres]

theorem bracketContent_eq : ∀ (pre content post : List Char),
    (∀ c ∈ pre, ¬ c = '[') → content ≠ [] →
    (∀ c ∈ content, ¬ c = ']' ∧ ¬ c = '\n') →
    (∀ c ∈ post.takeWhile (fun x => !(x = '\n')), ¬ c = ']') →
    bracketContent (pre ++ '[' :: (content ++ ']' :: post)) = some content
  | [], content, post, _, hc0, hcb, hpost => by
    simp only [List.nil_append]
    rw [bracketContent_cons_eq, if_pos rfl]
    have ht : (content ++ ']' :: post).takeWhile (fun x => !(x = '\n')) =
        content ++ ']' :: post.takeWhile (fun x => !(x = '\n')) := by
      rw [List.takeWhile_append_of_pos (by
        intro a ha
        simp [(hcb a ha).2])]
      rw [List.takeWhile_cons, if_pos (by decide)]
    have hrev : (content ++ ']' :: post.takeWhile (fun x => !(x = '\n'))).reverse.dropWhile
        (fun c => !(c = ']')) = ']' :: content.reverse := by
      rw [List.reverse_append]
      rw [show (']' :: post.takeWhile (fun x => !(x = '\n'))).reverse =
          (post.takeWhile (fun x => !(x = '\n'))).reverse ++ [']'] from by simp]
      rw [List.append_assoc]
      rw [List.dropWhile_append_of_pos (by
        intro a ha
        simp [hpost a (List.mem_reverse.mp ha)])]
      rw [List.singleton_append]
      rw [List.dropWhile_cons, if_neg (by decide)]
    rw [ht, seekClose_eq _ content.reverse hrev (by simpa using hc0)]
    simp
  | p0 :: pre2, content, post, hpre, hc0, hcb, hpost => by
    have hp0 : ¬ p0 = '[' := hpre p0 (List.mem_cons_self p0 pre2)
    show bracketContent (p0 :: (pre2 ++ '[' :: (content ++ ']' :: post))) = some content
    rw [bracketContent_cons_eq, if_neg hp0]
    exact bracketContent_eq pre2 content post
      (fun c hc => hpre c (List.mem_cons_of_mem p0 hc)) hc0 hcb hpost

end LogAnalyzer

namespace LogAnalyzer

theorem parseTimestampHour_tsChars (day mon year h mi s zh zm : Nat) (sgn : Char)
    (hmon1 : 1 ≤ mon) (hmon2 : mon ≤ 12)
    (hday1 : 1 ≤ day) (hday2 : day ≤ daysInMonth year mon)
    (hyear1 : 1 ≤ year) (hyear2 : year ≤ 9999)
    (hh : h ≤ 23) (hmi : mi ≤ 59) (hs : s ≤ 59)
    (hzh : zh ≤ 23) (hzm : zm ≤ 59)
    (hsgn : sgn = '+' ∨ sgn = '-') :
    parseTimestampHour (tsChars day mon year h mi s sgn zh zm) = some h := by
  have hday31 : day ≤ 31 := le_trans hday2 (daysInMonth_le year mon)
  have hsg : ∀ c : Char, (sgn :: (pad2 zh ++ pad2 zm)).head? = some c →
      isPySpace c = false := by
    intro c hc
    have : sgn = c := by simpa using hc
    subst this
    rcases hsgn with rfl | rfl
    · decide
    · decide
  simp only [tsChars]
  unfold parseTimestampHour
  rw [pDay_pad2 _ day hday1 hday31]
  simp only []
  rw [lit_self]
  simp only []
  rw [pMon_abbrev _ mon hmon1 hmon2]
  simp only []
  rw [lit_self]
  simp only []
  rw [pYear_pad4 _ year hyear2]
  simp only []
  rw [lit_self]
  simp only []
  rw [pHour_pad2 _ h hh]
  simp only []
  rw [lit_self]
  simp only []
  rw [pMin_pad2 _ mi hmi]
  simp only []
  rw [lit_self]
  simp only []
  rw [pSec_pad2 _ s hs]
  simp only []
  rw [pSpaces_space _ hsg]
  simp only []
  rw [pZ_sgn zh zm sgn hsgn hzh hzm]
  simp only []
  rw [if_pos ⟨trivial, hday2, hyear1, hs, by omega⟩]

/-- Claim C3: on every line whose bracketed segment is a well-formed
combined-log timestamp (canonical zero-padded rendering, arbitrary
prefix without `[`, arbitrary suffix without a reachable `]`), `get_hour`
returns exactly the hour digits written in the timestamp, a value in
0..23, with no timezone conversion (the result does not depend on the
sign or digits of the zone offset). -/
theorem get_hour_well_formed (pre post : String)
    (day mon year h mi s zh zm : Nat) (sgn : Char)
    (hpre : ∀ c ∈ pre.data, ¬ c = '[')
    (hpost : ∀ c ∈ post.data.takeWhile (fun x => !(x = '\n')), ¬ c = ']')
    (hmon1 : 1 ≤ mon) (hmon2 : mon ≤ 12)
    (hday1 : 1 ≤ day) (hday2 : day ≤ daysInMonth year mon)
    (hyear1 : 1 ≤ year) (hyear2 : year ≤ 9999)
    (hh : h ≤ 23) (hmi : mi ≤ 59) (hs : s ≤ 59)
    (hzh : zh ≤ 23) (hzm : zm ≤ 59)
    (hsgn : sgn = '+' ∨ sgn = '-') :
    get_hour (pre ++ "[" ++ String.mk (tsChars day mon year h mi s sgn zh zm) ++
      "]" ++ post) = some h ∧ h ≤ 23 := by
  have hday31 : day ≤ 31 := le_trans hday2 (daysInMonth_le year mon)
  refine ⟨?_, hh⟩
  have hdata : (pre ++ "[" ++ String.mk (tsChars day mon year h mi s sgn zh zm) ++
      "]" ++ post).data =
      pre.data ++ '[' :: (tsChars day mon year h mi s sgn zh zm ++ ']' :: post.data) := by
    simp only [String.data_append]
    simp [show ("[" : String).data = ['['] from rfl,
      show ("]" : String).data = [']'] from rfl, List.append_assoc]
  unfold get_hour
  rw [hdata]
  rw [bracketContent_eq pre.data _ post.data hpre
    (tsChars_ne_nil day mon year h mi s zh zm sgn)
    (tsChars_no_bad day mon year h mi s zh zm sgn hday31 hmon1 hmon2 hyear2 hh hmi hs
      hzh hzm hsgn)
    hpost]
  simp only []
  exact parseTimestampHour_tsChars day mon year h mi s zh zm sgn hmon1 hmon2 hday1 hday2
    hyear1 hyear2 hh hmi hs hzh hzm hsgn

/-- Witness for claim C3: the scenario-A timestamp, embedded in a line
with a realistic prefix and suffix, yields hour 0. -/
theorem get_hour_well_formed_w :
    get_hour ("66.249.66.35 - - " ++ "[" ++
      String.mk (tsChars 15 9 2023 0 18 46 '+' 2 0) ++ "]" ++
      " \"GET /x HTTP/1.1\" 200 100") = some 0 ∧ 0 ≤ 23 :=
  get_hour_well_formed "66.249.66.35 - - " " \"GET /x HTTP/1.1\" 200 100"
    15 9 2023 0 18 46 2 0 '+'
    (by decide) (by decide) (by decide) (by decide) (by decide) (by decide)
    (by decide) (by decide) (by decide) (by decide) (by decide) (by decide)
    (by decide) (Or.inl rfl)

end LogAnalyzer
